import Mathlib

/-!
Shallow embedding of the hydrazine `math.h` bit-manipulation and
extended-precision arithmetic core, together with theorems settling the
specification's claims about it.

Modelling conventions.  A machine value of a width-`W` integer type (signed or
unsigned) is represented by its bit pattern, a natural number `< 2 ^ W`.
Arithmetic on the unsigned counterpart type is modelled by Nat arithmetic
followed by `% 2 ^ W` wherever the C++ operation is performed in the machine
type (two's-complement wraparound, which is also what the spec assumes for the
signed minimum-value edge case).  Bitwise `~x` on a `W`-bit pattern is
`(2 ^ W - 1) ^^^ x`.  Arithmetic right shift of a signed value is modelled by
`Int.shiftRight` on the two's-complement interpretation.  A C++ construct whose
behaviour is undefined (a shift of the `int` literal `1` by 32 or more bits) or
that fails a debug `assert` is modelled by `Option`, `none` marking the
undefined / asserting execution.  While loops with a provable iteration bound
are modelled with explicit fuel equal to that bound.
-/

namespace hydrazine

/-- Two's-complement interpretation of a `W`-bit pattern as an integer. -/
def toSigned (W : Nat) (v : Nat) : Int :=
  if v < 2 ^ (W - 1) then (v : Int) else (v : Int) - 2 ^ W

/-- Modelled from the spec: `isNegative` lives in `MetaProgramming.h`, which is
not part of the sources; per spec §2/§4.3 it is the sign-test primitive used by
the extended arithmetic: true iff the operand's type is signed and its value is
negative, i.e. its sign bit is set.  Always false for unsigned types. -/
def isNegative (W : Nat) (signed : Bool) (v : Nat) : Bool :=
  signed && decide (2 ^ (W - 1) ≤ v)

/-- Model of `isPowerOfTwo` (`math.h` lines 73-81, both the `int` and the
`unsigned int` overload act identically on 32-bit patterns):
`(value & (~value + 1)) == value`, where `~value + 1` is two's-complement
negation `(2^32 - value) % 2^32`. -/
def isPowerOfTwo (value : Nat) : Bool :=
  (value &&& ((2 ^ 32 - value) % 2 ^ 32)) == value

/-- Model of `modPowerOfTwo` (`math.h` lines 83-93): `assert (value != 0)`
then `value1 & (value - 1)`.  `none` models the failing assertion. -/
def modPowerOfTwo (value1 value : Nat) : Option Nat :=
  if value = 0 then none else some (value1 &&& (value - 1))

/-- Model of `powerOfTwo` (`math.h` lines 95-105) on 32-bit unsigned values:
decrement, OR in the right-shifted copies at offsets 1,2,4,8,16, increment. -/
def powerOfTwo (value : Nat) : Nat :=
  let v := (value + (2 ^ 32 - 1)) % 2 ^ 32
  let v := v ||| (v >>> 1)
  let v := v ||| (v >>> 2)
  let v := v ||| (v >>> 4)
  let v := v ||| (v >>> 8)
  let v := v ||| (v >>> 16)
  (v + 1) % 2 ^ 32

/-- Loop of `countLeadingZeros` (`math.h` lines 117-121).  The fuel starts at
`W`: since `count` strictly increases each iteration and the loop guard
requires `count < W`, the loop runs at most `W` times, so this fuel is exact. -/
def clzLoop (W mask : Nat) : Nat → Nat → Nat → Nat
  | 0, count, _ => count
  | fuel + 1, count, value =>
      if count < W ∧ value &&& mask = 0 then
        clzLoop W mask fuel (count + 1) ((value <<< 1) % 2 ^ W)
      else count

/-- Model of `countLeadingZeros` (`math.h` lines 110-124) for a type of width
`W`: `mask = ((type)1) << (max - 1)`, then the scanning loop. -/
def countLeadingZeros (W : Nat) (value : Nat) : Nat :=
  clzLoop W ((1 <<< (W - 1)) % 2 ^ W) W 0 value

/-- Loop of `popc` (`math.h` lines 131-135): the running value is the
two's-complement integer, `value >>= 1` is an arithmetic shift
(`Int.shiftRight`), and `value & 1` tests the low bit, which in two's
complement is `value % 2` (the nonnegative remainder).  `none` means the loop
has not terminated within the given fuel. -/
def popcLoop : Nat → Int → Nat → Option Nat
  | 0, value, count => if value = 0 then some count else none
  | fuel + 1, value, count =>
      if value = 0 then some count
      else popcLoop fuel (value >>> 1) (if value % 2 ≠ 0 then count + 1 else count)

/-- Model of `popc` (`math.h` lines 126-138) for a width-`W` operand, signed or
unsigned.  For an unsigned type the running value is the (nonnegative) pattern
itself, for a signed type its two's-complement interpretation; both cases run
the same loop on `Int`, where `>>>` agrees with the C++ shift (logical on
nonnegative values, arithmetic on negative ones). -/
def popc (W : Nat) (signed : Bool) (fuel : Nat) (value : Nat) : Option Nat :=
  popcLoop fuel (if signed then toSigned W value else (value : Int)) 0

/-- Loop of `bfind` (`math.h` lines 146-153), iterating `i` from `msb` down to
`0`; the argument is the count of indices still to scan, so `i + 1` scans index
`i` next.  The C++ mask is `1 << i` where `1` has type `int` (32 bits wide):
for `32 ≤ i` that shift is undefined behaviour, modelled by the outer `none`.
The inner value is `none` while `d` still holds its initial `-1`. -/
def bfindLoop (value : Nat) : Nat → Option (Option Nat)
  | 0 => some none
  | i + 1 =>
      if 32 ≤ i then none
      else if value &&& (1 <<< i) ≠ 0 then some (some i) else bfindLoop value i

/-- Model of `bfind` (`math.h` lines 140-164) for a width-`W` operand.  `d` is
an `unsigned int`, initialised to `-1` = `2^32 - 1`; if `shiftAmount` is set
and a bit was found, `d` becomes `msb - d`. -/
def bfind (W : Nat) (value : Nat) (shiftAmount : Bool) : Option Nat :=
  match bfindLoop value W with
  | none => none
  | some found =>
      let d : Nat :=
        match found with
        | none => 2 ^ 32 - 1
        | some i => i
      some (if shiftAmount then (if d ≠ 2 ^ 32 - 1 then (W - 1) - d else d) else d)

/-- Model of `bitExtract` (`math.h` lines 166-173) for a width-`W` operand:
the bit at `position`, left in place (`0` or `2 ^ position`).  For a signed
type the first shift is arithmetic, but the following `&= 1` makes its result
agree with the logical shift used here. -/
def bitExtract (W : Nat) (value : Nat) (position : Nat) : Nat :=
  let value := value >>> position
  let value := value &&& 1
  let value := (value <<< position) % 2 ^ W
  value

/-- Model of `bitInsert` (`math.h` lines 175-184) for a width-`W` operand:
`bit &= 1; bit <<= position; value = (value & ~bit) | bit`. -/
def bitInsert (W : Nat) (value bit : Nat) (position : Nat) : Nat :=
  let bit := bit &&& 1
  let bit := (bit <<< position) % 2 ^ W
  let mask := (2 ^ W - 1) ^^^ bit
  let value := value &&& mask
  let value := value ||| bit
  value

/-- Definition following the words of the spec for `bitInsert` (claim C2), for
comparison with the source model: the bit of `value` at `position` is replaced
by `bit & 1` and every other bit is unchanged. -/
def bitInsertSpec (W : Nat) (value bit : Nat) (position : Nat) : Nat :=
  (value &&& ((2 ^ W - 1) ^^^ ((1 <<< position) % 2 ^ W)))
    ||| (((bit &&& 1) <<< position) % 2 ^ W)

/-- Model of `brev` (`math.h` lines 186-198): for `i = 0 .. msb`, insert the
in-place bit extracted at the mirrored position `msb - i` at position `i`. -/
def brev (W : Nat) (value : Nat) : Nat :=
  let msb := W - 1
  (List.range W).foldl (fun result i => bitInsert W result (bitExtract W value (msb - i)) i) 0

/-- Model of `multiplyHiLo` (`math.h` lines 203-263) for a width-`W` operand,
with `signed` telling whether `type` is a signed type (this decides
`isNegative`; the cast to the unsigned counterpart `utype` is the identity on
patterns).  All `utype` arithmetic is mod `2 ^ W`; `-x` is `(2^W - x) % 2^W`
and `~x` is `2^W - 1 - x` on patterns. -/
def multiplyHiLo (W : Nat) (signed : Bool) (r0 r1 : Nat) : Nat × Nat :=
  let M := 2 ^ W
  let r0Signed := isNegative W signed r0
  let r1Signed := isNegative W signed r1
  let r0 := if r0Signed then (M - r0) % M else r0
  let r1 := if r1Signed then (M - r1) % M else r1
  let negative := (r0Signed && !r1Signed) || (r1Signed && !r0Signed)
  let bits := W / 2
  let mask := (1 <<< bits) - 1
  let a := r0 >>> bits
  let b := r0 &&& mask
  let c := r1 >>> bits
  let d := r1 &&& mask
  let da := (d * a) % M
  let db := (d * b) % M
  let ca := (c * a) % M
  let cb := (c * b) % M
  let totalBits := W - 1
  let upperMask := (1 <<< totalBits) - 1
  let daUpper := da >>> totalBits
  let cbUpper := cb >>> totalBits
  let xCarryIn := ((da &&& upperMask) + (cb &&& upperMask)) >>> totalBits
  let xCarryOut := (daUpper + cbUpper + xCarryIn) >>> 1
  let x := (da + cb) % M
  let xUpper := x >>> totalBits
  let yCarryIn := ((x &&& upperMask) + (db >>> bits)) >>> totalBits
  let yCarryOut := (yCarryIn + xUpper) >>> 1
  let y := ((db >>> bits) + x) % M
  let lo := ((db &&& mask) ||| ((y &&& mask) <<< bits)) % M
  let hi := ((y >>> bits) + ca + ((yCarryOut + xCarryOut) <<< bits)) % M
  let loUpperBit := ((M - 1) - lo) >>> totalBits
  let signCarryIn := ((((M - 1) - lo) &&& upperMask) + 1) >>> totalBits
  let signCarryOut := (loUpperBit + signCarryIn) >>> 1
  let lo := if negative then (M - lo) % M else lo
  let hi := if negative then (((M - 1) - hi) + signCarryOut) % M else hi
  (hi, lo)

/-- Model of `addHiLo` (`math.h` lines 265-280) for a width-`W` operand: add
`r0` into `lo` in the unsigned counterpart type, derive the 0/1 carry from
unsigned wraparound comparison, add the carry into `hi`. -/
def addHiLo (W : Nat) (hi lo r0 : Nat) : Nat × Nat :=
  let M := 2 ^ W
  let uHi := hi
  let uLo := lo
  let uR0 := r0
  let loResult := (uR0 + uLo) % M
  let carry := if loResult < uR0 ∨ loResult < uLo then 1 else 0
  let hiResult := (uHi + carry) % M
  (hiResult, loResult)

/-! ### Helper lemmas -/

theorem hiLo_mod (M a b : Nat) (hM : 0 < M) (hb : b < M) :
    (a * M + b) % (M * M) = a % M * M + b := by
  have h2 : a % M < M := Nat.mod_lt a hM
  have hlt : a % M * M + b < M * M := by
    calc a % M * M + b < a % M * M + M := by omega
      _ = (a % M + 1) * M := by ring
      _ ≤ M * M := Nat.mul_le_mul_right M (by omega)
  conv_lhs => rw [← Nat.div_add_mod a M]
  have h1 : (M * (a / M) + a % M) * M + b = M * M * (a / M) + (a % M * M + b) := by ring
  rw [h1, Nat.mul_add_mod, Nat.mod_eq_of_lt hlt]

theorem bitInsert_eq (W v b pos : Nat) (hp : pos < W) (hv : v < 2 ^ W) :
    bitInsert W v b pos = if b % 2 = 1 then v ||| 2 ^ pos else v := by
  have hpw : 2 ^ pos < 2 ^ W := Nat.pow_lt_pow_right (by norm_num) hp
  simp only [bitInsert, Nat.and_one_is_mod]
  by_cases hb : b % 2 = 1
  · rw [if_pos hb, hb]
    rw [Nat.shiftLeft_eq, one_mul, Nat.mod_eq_of_lt hpw]
    apply Nat.eq_of_testBit_eq
    intro i
    simp only [Nat.testBit_or, Nat.testBit_and, Nat.testBit_xor,
      Nat.testBit_two_pow_sub_one, Nat.testBit_two_pow]
    by_cases hip : pos = i
    · subst hip
      simp [hp]
    · simp only [decide_eq_false hip, Bool.xor_false, Bool.or_false]
      by_cases hiW : i < W
      · simp [hiW]
      · have hz : v.testBit i = false :=
          Nat.testBit_lt_two_pow
            (lt_of_lt_of_le hv (Nat.pow_le_pow_right (by norm_num) (Nat.le_of_not_lt hiW)))
        simp [hz]
  · rw [if_neg hb]
    have hb0 : b % 2 = 0 := by omega
    rw [hb0]
    simp only [Nat.zero_shiftLeft, Nat.zero_mod, Nat.xor_zero, Nat.or_zero,
      Nat.and_pow_two_sub_one_eq_mod]
    exact Nat.mod_eq_of_lt hv

/-! ### Claims -/

/-- C2 (counterexample): the spec says `bitInsert(v, bit, pos)` replaces the
bit of `v` at `pos` by `bit & 1`, so with `v = 1`, `bit = 0`, `pos = 0` it
would have to clear bit 0 and return `0` (as `bitInsertSpec` does).  The source
leaves `v` unchanged at `1`: after `bit &= 1; bit <<= pos` the mask `~bit` is
all-ones whenever `bit & 1 = 0`, so nothing is ever cleared. -/
theorem bitInsert_zero_bit_does_not_clear :
    bitInsert 32 1 0 0 = 1 ∧ bitInsertSpec 32 1 0 0 = 0 ∧
      bitInsert 32 1 0 0 ≠ bitInsertSpec 32 1 0 0 := by decide

/-- C2 (amended): for `pos < W` and a `W`-bit `v`, `bitInsert(v, bit, pos)`
returns `v` with the bit at `pos` ORed with `bit & 1` — it sets the bit when
`bit & 1 = 1` and leaves `v` unchanged when `bit & 1 = 0`; every other bit of
`v` is unchanged. -/
theorem bitInsert_sets_or_keeps (W v b pos : Nat) (hp : pos < W) (hv : v < 2 ^ W) :
    (∀ i, i ≠ pos → (bitInsert W v b pos).testBit i = v.testBit i) ∧
      (bitInsert W v b pos).testBit pos = (v.testBit pos || decide (b % 2 = 1)) := by
  rw [bitInsert_eq W v b pos hp hv]
  by_cases hb : b % 2 = 1
  · rw [if_pos hb]
    constructor
    · intro i hi
      simp [Nat.testBit_or, Nat.testBit_two_pow, Ne.symm hi]
    · simp [Nat.testBit_or, Nat.testBit_two_pow, hb]
  · rw [if_neg hb]
    simp [hb]

theorem bitInsert_sets_or_keeps_witness :
    (∀ i, i ≠ 1 → (bitInsert 32 5 0 1).testBit i = (5 : Nat).testBit i) ∧
      (bitInsert 32 5 0 1).testBit 1 = ((5 : Nat).testBit 1 || decide ((0 : Nat) % 2 = 1)) :=
  bitInsert_sets_or_keeps 32 5 0 1 (by decide) (by decide)

/-- C10: for any `W`-bit `v` and in-range `pos`, a `bit` argument whose least
significant bit is `0` leaves `v` completely unchanged — inserting a zero bit
never clears an existing one at `pos`. -/
theorem bitInsert_even_bit_identity (W v b pos : Nat) (hp : pos < W) (hv : v < 2 ^ W)
    (hb : b % 2 = 0) : bitInsert W v b pos = v := by
  rw [bitInsert_eq W v b pos hp hv]
  simp [hb]

theorem bitInsert_even_bit_identity_witness : bitInsert 32 0xDEAD 4 7 = 0xDEAD :=
  bitInsert_even_bit_identity 32 0xDEAD 4 7 (by decide) (by decide) (by decide)

/-- C3 (code bug): `brev` is documented as "Reverse the bits in the operand",
but `bitInsert` reduces its `bit` argument with `bit &= 1` while `bitExtract`
returns the extracted bit left in place (`0` or `2 ^ (msb - i)`), so every
iteration except `i = msb` inserts `0` — which, moreover, `bitInsert` cannot
clear.  Hence `brev(v) = (v & 1) << (W-1)` and the double-reversal identity
fails: on 8-bit `v = 1`, `brev 1 = 0x80` and `brev (brev 1) = 0 ≠ 1`. -/
theorem brev_brev_one_eq_zero :
    brev 8 (brev 8 1) = 0 ∧ brev 8 (brev 8 1) ≠ 1 ∧ brev 8 1 = 0x80 := by decide

/-- C5 (counterexample): the claim says the output pair reassembles to the
exact sum `hi:lo + r0` for all same-width inputs, but at
`hi = lo = 0xFFFFFFFF`, `r0 = 1` the code returns `(0, 0)`, and
`0 ≠ 0xFFFFFFFF:FFFFFFFF + 1 = 2^64`: the carry out of the top word is lost. -/
theorem addHiLo_top_carry_lost :
    addHiLo 32 0xFFFFFFFF 0xFFFFFFFF 1 = (0, 0) ∧
      (0 : Nat) * 2 ^ 32 + 0 ≠ 0xFFFFFFFF * 2 ^ 32 + 0xFFFFFFFF + 1 := by decide

/-- C5 (amended): `addHiLo` adds `r0` into `lo` and a 0/1 carry into `hi`
only, and treating all operands as `W`-bit (unsigned) patterns the output pair
equals the input `hi:lo` plus `r0` modulo `2 ^ (2W)` — hence it is exact
whenever `hi:lo + r0 < 2 ^ (2W)`; in particular
`addHiLo(hi=0, lo=0xFFFFFFFF, r0=1) = (1, 0)` on 32-bit operands. -/
theorem addHiLo_exact_mod (W hi lo r0 : Nat) (hhi : hi < 2 ^ W) (hlo : lo < 2 ^ W)
    (hr0 : r0 < 2 ^ W) :
    ((addHiLo W hi lo r0).1 * 2 ^ W + (addHiLo W hi lo r0).2
        = (hi * 2 ^ W + lo + r0) % 2 ^ (2 * W)) ∧
      addHiLo 32 0 0xFFFFFFFF 1 = (1, 0) := by
  refine ⟨?_, by decide⟩
  have hM : 0 < 2 ^ W := Nat.two_pow_pos W
  have hMM : (2 : Nat) ^ (2 * W) = 2 ^ W * 2 ^ W := by rw [two_mul, pow_add]
  simp only [addHiLo]
  by_cases hcase : r0 + lo < 2 ^ W
  · rw [Nat.mod_eq_of_lt hcase, if_neg (by omega : ¬(r0 + lo < r0 ∨ r0 + lo < lo))]
    rw [hMM]
    have h3 : hi * 2 ^ W + lo + r0 = hi * 2 ^ W + (lo + r0) := by ring
    rw [h3, hiLo_mod _ _ _ hM (by omega)]
    rw [Nat.add_zero, Nat.mod_eq_of_lt hhi]
    ring
  · push_neg at hcase
    rw [Nat.mod_eq_sub_mod hcase, Nat.mod_eq_of_lt (by omega : r0 + lo - 2 ^ W < 2 ^ W)]
    rw [if_pos (by omega : r0 + lo - 2 ^ W < r0 ∨ r0 + lo - 2 ^ W < lo)]
    rw [hMM]
    have h2 : hi * 2 ^ W + lo + r0 = (hi + 1) * 2 ^ W + (r0 + lo - 2 ^ W) := by
      have h4 : (hi + 1) * 2 ^ W = hi * 2 ^ W + 2 ^ W := by ring
      omega
    rw [h2, hiLo_mod _ _ _ hM (by omega)]

theorem addHiLo_exact_mod_witness :
    ((addHiLo 32 2 3 7).1 * 2 ^ 32 + (addHiLo 32 2 3 7).2
        = (2 * 2 ^ 32 + 3 + 7) % 2 ^ (2 * 32)) ∧
      addHiLo 32 0 0xFFFFFFFF 1 = (1, 0) :=
  addHiLo_exact_mod 32 2 3 7 (by decide) (by decide) (by decide)

/-- C6 (code bug): `bfind` computes its probe mask as `1 << i` where the
literal `1` has type `int` (32 bits), although `i` runs from `msb = W - 1`
down to `0`; for a 64-bit operand the first probe already shifts by 63, which
is undefined behaviour (modelled as `none`), so `bfind` cannot return the MSB
index 32 for `v = 2^32` that the claim requires.  For widths up to 32 the scan
is well defined, e.g. `bfind 32 (2^31) false = some 31`. -/
theorem bfind_64_undefined :
    bfind 64 (2 ^ 32) false = none ∧ bfind 32 (2 ^ 31) false = some 31 := by decide

/-- C8 (counterexample): the claim says `modPowerOfTwo` asserts exactly when
`p` is not a power of two; but at `p = 3` — not a power of two — the code's
only assertion `p != 0` passes, and it returns `1 & 2 = 0`, which is not even
`1 mod 3`. -/
theorem modPowerOfTwo_no_assert_at_three :
    modPowerOfTwo 1 3 = some 0 ∧ isPowerOfTwo 3 = false ∧ (1 : Nat) % 3 ≠ 0 := by decide

/-- C8 (amended): `modPowerOfTwo(v, p)` fails its debug assertion exactly when
`p = 0`; for every power of two `p = 2^k` it returns `v & (p - 1) = v mod p`
without asserting. -/
theorem modPowerOfTwo_assert_iff_zero :
    (∀ v p : Nat, modPowerOfTwo v p = none ↔ p = 0) ∧
      (∀ v k : Nat, modPowerOfTwo v (2 ^ k) = some (v % 2 ^ k)) := by
  constructor
  · intro v p
    unfold modPowerOfTwo
    by_cases hp : p = 0 <;> simp [hp]
  · intro v k
    unfold modPowerOfTwo
    rw [if_neg (Nat.two_pow_pos k).ne']
    rw [Nat.and_pow_two_sub_one_eq_mod]

theorem popcLoop_neg_one : ∀ fuel count, popcLoop fuel (-1) count = none := by
  intro fuel
  induction fuel with
  | zero =>
      intro count
      show (if (-1 : Int) = 0 then some count else none) = none
      rw [if_neg (by decide)]
  | succ n ih =>
      intro count
      show (if (-1 : Int) = 0 then some count
            else popcLoop n ((-1) >>> 1) (if (-1 : Int) % 2 ≠ 0 then count + 1 else count)) = none
      rw [if_neg (by decide)]
      exact ih _

/-- C4 (code bug): `popc` is documented as computing the number of set bits of
any operand, and the spec requires it to be total, but for a signed operand
with the sign bit set the loop never terminates: `value >>= 1` is an
arithmetic shift, so the running value stays negative (e.g. `-1 >> 1 = -1`)
and never reaches `0`.  On the 8-bit signed pattern `255` (the value `-1`,
whose Hamming weight the claim says is `8`), no amount of fuel makes the loop
return. -/
theorem popc_negative_diverges :
    (∀ fuel, popc 8 true fuel 255 = none) ∧ toSigned 8 255 = -1 := by
  refine ⟨?_, by decide⟩
  intro fuel
  unfold popc
  rw [if_pos rfl, show toSigned 8 255 = -1 from by decide]
  exact popcLoop_neg_one fuel 0

theorem testBit_log2_self (x : Nat) (hx : x ≠ 0) : x.testBit (Nat.log 2 x) = true := by
  have h1 : 2 ^ Nat.log 2 x ≤ x := Nat.pow_log_le_self 2 hx
  have h2 : x < 2 ^ (Nat.log 2 x + 1) := Nat.lt_pow_succ_log_self (by norm_num) x
  have h3 : (2 : Nat) ^ (Nat.log 2 x + 1) = 2 ^ Nat.log 2 x * 2 := pow_succ 2 _
  rw [Nat.testBit_to_div_mod]
  have hdiv : x / 2 ^ Nat.log 2 x = 1 := Nat.div_eq_of_lt_le (by omega) (by omega)
  rw [hdiv]
  decide

theorem testBit_gt_log2 (x i : Nat) (h : Nat.log 2 x < i) : x.testBit i = false := by
  by_cases hx : x = 0
  · subst hx; simp
  · apply Nat.testBit_lt_two_pow
    calc x < 2 ^ (Nat.log 2 x + 1) := Nat.lt_pow_succ_log_self (by norm_num) x
      _ ≤ 2 ^ i := Nat.pow_le_pow_right (by norm_num) (by omega)

theorem and_one_shift_ne (v n : Nat) : v &&& (1 <<< n) ≠ 0 ↔ v.testBit n = true := by
  rw [Nat.shiftLeft_eq, one_mul, Nat.and_two_pow]
  cases h : v.testBit n <;> simp [h, (Nat.two_pow_pos n).ne']

theorem bfindLoop_finds (v : Nat) (hv : v ≠ 0) :
    ∀ i, i ≤ 32 → Nat.log 2 v < i → bfindLoop v i = some (some (Nat.log 2 v)) := by
  intro i
  induction i with
  | zero => intro _ h; omega
  | succ n ih =>
      intro hn hlog
      show (if 32 ≤ n then none
            else if v &&& (1 <<< n) ≠ 0 then some (some n) else bfindLoop v n) = _
      rw [if_neg (by omega : ¬32 ≤ n)]
      by_cases hl : Nat.log 2 v = n
      · rw [if_pos ((and_one_shift_ne v n).mpr (hl ▸ testBit_log2_self v hv)), hl]
      · have hlt : Nat.log 2 v < n := by omega
        have hb : v.testBit n = false := testBit_gt_log2 v n hlt
        have hne : ¬(v &&& (1 <<< n) ≠ 0) := by rw [and_one_shift_ne]; simp [hb]
        rw [if_neg hne]
        exact ih (by omega) hlt

theorem bfind_msb (W v : Nat) (hW : W ≤ 32) (hv : v ≠ 0) (hvW : v < 2 ^ W) :
    bfind W v false = some (Nat.log 2 v) ∧
      bfind W v true = some (W - 1 - Nat.log 2 v) := by
  have hlog : Nat.log 2 v < W := Nat.log_lt_of_lt_pow hv hvW
  have hloop := bfindLoop_finds v hv W hW hlog
  have hsent : Nat.log 2 v ≠ 2 ^ 32 - 1 := by omega
  unfold bfind
  rw [hloop]
  constructor
  · rfl
  · show some (if Nat.log 2 v ≠ 2 ^ 32 - 1 then W - 1 - Nat.log 2 v else Nat.log 2 v)
        = some (W - 1 - Nat.log 2 v)
    rw [if_pos hsent]

theorem clzLoop_eval (W : Nat) (hW : 0 < W) :
    ∀ d fuel count v, d ≤ fuel → count + d ≤ W → 2 ^ (W - 1) ≤ v * 2 ^ d →
      v * 2 ^ d < 2 ^ W → clzLoop W (2 ^ (W - 1)) fuel count v = count + d := by
  intro d
  induction d with
  | zero =>
      intro fuel count v _ hcW hlo hhi
      rw [pow_zero, Nat.mul_one] at hlo hhi
      have hWpow : (2 : Nat) ^ W = 2 ^ (W - 1) * 2 := by
        rw [← pow_succ]; congr 1; omega
      have hdiv : v / 2 ^ (W - 1) = 1 := Nat.div_eq_of_lt_le (by omega) (by omega)
      have hbit : v &&& 2 ^ (W - 1) ≠ 0 := by
        rw [Nat.and_two_pow, Nat.testBit_to_div_mod, hdiv]
        simp [(Nat.two_pow_pos (W - 1)).ne']
      cases fuel with
      | zero => rfl
      | succ n =>
          show (if count < W ∧ v &&& 2 ^ (W - 1) = 0 then
                  clzLoop W (2 ^ (W - 1)) n (count + 1) ((v <<< 1) % 2 ^ W)
                else count) = count + 0
          rw [if_neg (fun h => hbit h.2)]
          omega
  | succ d ih =>
      intro fuel count v hdf hcW hlo hhi
      have h2d : (2 : Nat) ≤ 2 ^ (d + 1) := by
        calc (2 : Nat) = 2 ^ 1 := (pow_one 2).symm
          _ ≤ 2 ^ (d + 1) := Nat.pow_le_pow_right (by norm_num) (by omega)
      have hWpow : (2 : Nat) ^ W = 2 ^ (W - 1) * 2 := by
        rw [← pow_succ]; congr 1; omega
      have hv2 : v * 2 ≤ v * 2 ^ (d + 1) := Nat.mul_le_mul_left v h2d
      have hvlt : v < 2 ^ (W - 1) := by omega
      have hbit : v &&& 2 ^ (W - 1) = 0 := by
        rw [Nat.and_two_pow, Nat.testBit_lt_two_pow hvlt]
        simp
      cases fuel with
      | zero => omega
      | succ n =>
          show (if count < W ∧ v &&& 2 ^ (W - 1) = 0 then
                  clzLoop W (2 ^ (W - 1)) n (count + 1) ((v <<< 1) % 2 ^ W)
                else count) = count + (d + 1)
          rw [if_pos ⟨by omega, hbit⟩]
          have hshift : (v <<< 1) % 2 ^ W = v * 2 := by
            rw [Nat.shiftLeft_eq, pow_one]
            exact Nat.mod_eq_of_lt (by omega)
          rw [hshift]
          have harg1 : v * 2 * 2 ^ d = v * 2 ^ (d + 1) := by rw [pow_succ]; ring
          have hrec := ih n (count + 1) (v * 2) (by omega) (by omega)
            (by rw [harg1]; exact hlo) (by rw [harg1]; exact hhi)
          rw [hrec]
          omega

theorem countLeadingZeros_eval (W v : Nat) (hW : 0 < W) (hv : v ≠ 0) (hvW : v < 2 ^ W) :
    countLeadingZeros W v = W - 1 - Nat.log 2 v := by
  unfold countLeadingZeros
  rw [show (1 <<< (W - 1)) % 2 ^ W = 2 ^ (W - 1) from by
    rw [Nat.shiftLeft_eq, one_mul]
    exact Nat.mod_eq_of_lt (Nat.pow_lt_pow_right (by norm_num) (by omega))]
  have hlog : Nat.log 2 v < W := Nat.log_lt_of_lt_pow hv hvW
  have hle : 2 ^ Nat.log 2 v ≤ v := Nat.pow_log_le_self 2 hv
  have hlt : v < 2 ^ (Nat.log 2 v + 1) := Nat.lt_pow_succ_log_self (by norm_num) v
  have hlo : 2 ^ (W - 1) ≤ v * 2 ^ (W - 1 - Nat.log 2 v) := by
    calc 2 ^ (W - 1) = 2 ^ Nat.log 2 v * 2 ^ (W - 1 - Nat.log 2 v) := by
          rw [← pow_add]; congr 1; omega
      _ ≤ v * 2 ^ (W - 1 - Nat.log 2 v) := Nat.mul_le_mul_right _ hle
  have hhi : v * 2 ^ (W - 1 - Nat.log 2 v) < 2 ^ W := by
    calc v * 2 ^ (W - 1 - Nat.log 2 v) < 2 ^ (Nat.log 2 v + 1) * 2 ^ (W - 1 - Nat.log 2 v) :=
          (Nat.mul_lt_mul_right (Nat.two_pow_pos _)).mpr hlt
      _ = 2 ^ W := by rw [← pow_add]; congr 1; omega
  have h := clzLoop_eval W hW (W - 1 - Nat.log 2 v) W 0 v (by omega) (by omega) hlo hhi
  rw [h]
  omega

/-- C7 (counterexample): with the source's conventions,
`bfind(v, true)` already equals `countLeadingZeros(v)` (both are
`W - 1 - msbIndex`), so the claimed relation
`countLeadingZeros(v) + 1 + bfind(v, true) = W` fails: at `W = 32`, `v = 1`
both sides of the addition are `31` and `31 + 1 + 31 = 63 ≠ 32`. -/
theorem clz_plus_bfind_true_fails :
    countLeadingZeros 32 1 = 31 ∧ bfind 32 1 true = some 31 ∧ 31 + 1 + 31 ≠ 32 := by decide

/-- C7 (amended): the relation holds with the MSB-index convention
(`shiftAmount = false`): for the widths at which `bfind` is well defined
(8/16/32; the 64-bit instantiation is undefined, see C6) and every nonzero
`W`-bit `v`, `bfind(v, false)` finds the MSB index `d` and
`countLeadingZeros(v) + 1 + d = W`.  Equivalently, `bfind(v, true)` equals
`countLeadingZeros(v)`. -/
theorem clz_plus_bfind_false (W v : Nat) (hW : W = 8 ∨ W = 16 ∨ W = 32) (hv : v ≠ 0)
    (hvW : v < 2 ^ W) :
    ∃ d, bfind W v false = some d ∧ countLeadingZeros W v + 1 + d = W := by
  have hW0 : 0 < W := by rcases hW with h | h | h <;> omega
  have hW32 : W ≤ 32 := by rcases hW with h | h | h <;> omega
  refine ⟨Nat.log 2 v, (bfind_msb W v hW32 hv hvW).1, ?_⟩
  rw [countLeadingZeros_eval W v hW0 hv hvW]
  have hlog : Nat.log 2 v < W := Nat.log_lt_of_lt_pow hv hvW
  omega

theorem clz_plus_bfind_false_witness :
    ∃ d, bfind 32 5 false = some d ∧ countLeadingZeros 32 5 + 1 + d = 32 :=
  clz_plus_bfind_false 32 5 (Or.inr (Or.inr rfl)) (by decide) (by decide)

theorem fill_step (x y n : Nat)
    (hy : ∀ i, y.testBit i = true ↔ ∃ d, d < n ∧ x.testBit (i + d) = true) :
    ∀ i, (y ||| y >>> n).testBit i = true ↔ ∃ d, d < 2 * n ∧ x.testBit (i + d) = true := by
  intro i
  rw [Nat.testBit_or, Bool.or_eq_true, Nat.testBit_shiftRight, hy i, hy (n + i)]
  constructor
  · rintro (⟨d, hd, hb⟩ | ⟨d, hd, hb⟩)
    · exact ⟨d, by omega, hb⟩
    · exact ⟨n + d, by omega, by rwa [show i + (n + d) = n + i + d from by omega]⟩
  · rintro ⟨d, hd, hb⟩
    by_cases hdn : d < n
    · exact Or.inl ⟨d, hdn, hb⟩
    · exact Or.inr ⟨d - n, by omega, by rwa [show n + i + (d - n) = i + d from by omega]⟩

theorem isPowerOfTwo_pow (k : Nat) (hk : k ≤ 31) : isPowerOfTwo (2 ^ k) = true := by
  unfold isPowerOfTwo
  have hk1 : (1 : Nat) ≤ 2 ^ k := Nat.one_le_two_pow
  have hle : (2 : Nat) ^ k ≤ 2 ^ 32 := Nat.pow_le_pow_right (by norm_num) (by omega)
  have h1 : ((2 : Nat) ^ 32 - 2 ^ k) % 2 ^ 32 = 2 ^ 32 - 2 ^ k :=
    Nat.mod_eq_of_lt (by omega)
  rw [h1]
  have h2 : (2 : Nat) ^ 32 - 2 ^ k = 2 ^ k * (2 ^ (32 - k) - 1) := by
    rw [Nat.mul_sub, Nat.mul_one, ← pow_add]
    congr 2
    omega
  rw [h2, Nat.two_pow_and, Nat.testBit_mul_pow_two]
  simp [Nat.testBit_two_pow_sub_one, (by omega : 0 < 32 - k)]

theorem powerOfTwo_eq (v : Nat) (h1 : 2 ≤ v) (h2 : v ≤ 2 ^ 31) :
    powerOfTwo v = 2 ^ (Nat.log 2 (v - 1) + 1) := by
  have hdec : (v + (2 ^ 32 - 1)) % 2 ^ 32 = v - 1 := by
    have hsplit : v + (2 ^ 32 - 1) = 2 ^ 32 + (v - 1) := by omega
    rw [hsplit, Nat.add_mod_left, Nat.mod_eq_of_lt (by omega)]
  simp only [powerOfTwo]
  rw [hdec]
  set x := v - 1 with hxdef
  have hx0 : x ≠ 0 := by omega
  set L := Nat.log 2 x with hLdef
  have hL31 : L < 31 := Nat.log_lt_of_lt_pow hx0 (by omega)
  set y1 := x ||| x >>> 1 with hy1
  set y2 := y1 ||| y1 >>> 2 with hy2
  set y3 := y2 ||| y2 >>> 4 with hy3
  set y4 := y3 ||| y3 >>> 8 with hy4
  set y5 := y4 ||| y4 >>> 16 with hy5
  have c0 : ∀ i, x.testBit i = true ↔ ∃ d, d < 1 ∧ x.testBit (i + d) = true := by
    intro i
    constructor
    · intro h
      exact ⟨0, by omega, by simpa using h⟩
    · rintro ⟨d, hd, hb⟩
      have hd0 : d = 0 := by omega
      subst hd0
      simpa using hb
  have c1 := fill_step x x 1 c0
  rw [← hy1] at c1
  have c2 := fill_step x y1 2 c1
  rw [← hy2] at c2
  have c3 := fill_step x y2 4 c2
  rw [← hy3] at c3
  have c4 := fill_step x y3 8 c3
  rw [← hy4] at c4
  have c5 := fill_step x y4 16 c4
  rw [← hy5] at c5
  have hy5val : y5 = 2 ^ (L + 1) - 1 := by
    apply Nat.eq_of_testBit_eq
    intro i
    rw [Nat.testBit_two_pow_sub_one]
    by_cases hi : i < L + 1
    · rw [decide_eq_true hi]
      exact (c5 i).mpr ⟨L - i, by omega,
        by rw [show i + (L - i) = L from by omega]; exact testBit_log2_self x hx0⟩
    · rw [decide_eq_false hi]
      cases hb : y5.testBit i with
      | false => rfl
      | true =>
          obtain ⟨d, _, hbd⟩ := (c5 i).mp hb
          rw [testBit_gt_log2 x (i + d) (by omega)] at hbd
          simp at hbd
  rw [hy5val]
  have hpos : (1 : Nat) ≤ 2 ^ (L + 1) := Nat.one_le_two_pow
  rw [show 2 ^ (L + 1) - 1 + 1 = 2 ^ (L + 1) from by omega]
  exact Nat.mod_eq_of_lt
    (by calc (2 : Nat) ^ (L + 1) ≤ 2 ^ 31 := Nat.pow_le_pow_right (by norm_num) (by omega)
      _ < 2 ^ 32 := by norm_num)

/-- C9: for every unsigned 32-bit `v` with `1 ≤ v ≤ 2^31`, `powerOfTwo v` is
the smallest power of two `≥ v`: it is a power of two (both mathematically and
according to the source's `isPowerOfTwo` test), it is `≥ v`, it is `< 2v`, and
if `v` is itself a power of two it equals `v`. -/
theorem powerOfTwo_round_up (v : Nat) (h1 : 1 ≤ v) (h2 : v ≤ 2 ^ 31) :
    (∃ k, powerOfTwo v = 2 ^ k) ∧ isPowerOfTwo (powerOfTwo v) = true ∧
      v ≤ powerOfTwo v ∧ powerOfTwo v < 2 * v ∧
      ((∃ k, v = 2 ^ k) → powerOfTwo v = v) := by
  by_cases hv1 : v = 1
  · subst hv1
    exact ⟨⟨0, by decide⟩, by decide, by decide, by decide, fun _ => by decide⟩
  · have h2v : 2 ≤ v := by omega
    have hp := powerOfTwo_eq v h2v h2
    set L := Nat.log 2 (v - 1) with hLdef
    have hx0 : v - 1 ≠ 0 := by omega
    have hL31 : L < 31 := Nat.log_lt_of_lt_pow hx0 (by omega)
    have hle : 2 ^ L ≤ v - 1 := Nat.pow_log_le_self 2 hx0
    have hlt : v - 1 < 2 ^ (L + 1) := Nat.lt_pow_succ_log_self (by norm_num) (v - 1)
    have hps : (2 : Nat) ^ (L + 1) = 2 ^ L * 2 := pow_succ 2 L
    refine ⟨⟨L + 1, hp⟩, hp ▸ isPowerOfTwo_pow (L + 1) (by omega), by omega, by omega, ?_⟩
    rintro ⟨k, hk⟩
    have hk0 : k ≠ 0 := by
      rintro rfl
      simp at hk
      omega
    have h1k : (1 : Nat) ≤ 2 ^ (k - 1) := Nat.one_le_two_pow
    have hkk : (2 : Nat) ^ k = 2 ^ (k - 1) * 2 := by
      rw [← pow_succ]
      congr 1
      omega
    have hvpos : (1 : Nat) ≤ 2 ^ k := Nat.one_le_two_pow
    have hLk : L = k - 1 := by
      rw [hLdef, hk]
      exact Nat.log_eq_of_pow_le_of_lt_pow (by omega)
        (by rw [show k - 1 + 1 = k from by omega]; omega)
    rw [hp, hLk, show k - 1 + 1 = k from by omega, hk]

theorem powerOfTwo_round_up_witness :
    (∃ k, powerOfTwo 5 = 2 ^ k) ∧ isPowerOfTwo (powerOfTwo 5) = true ∧
      5 ≤ powerOfTwo 5 ∧ powerOfTwo 5 < 2 * 5 ∧
      ((∃ k, (5 : Nat) = 2 ^ k) → powerOfTwo 5 = 5) :=
  powerOfTwo_round_up 5 (by decide) (by decide)

theorem carry_div (K u v : Nat) (hK : 0 < K) (hu : u < 2 * K) (hv : v < 2 * K) :
    (u / K + v / K + (u % K + v % K) / K) / 2 = (u + v) / (2 * K) := by
  have h1 : u + v = K * (u / K + v / K + (u % K + v % K) / K) + (u % K + v % K) % K := by
    have e1 := Nat.div_add_mod u K
    have e2 := Nat.div_add_mod v K
    have e3 := Nat.div_add_mod (u % K + v % K) K
    have expand : K * (u / K + v / K + (u % K + v % K) / K)
        = K * (u / K) + K * (v / K) + K * ((u % K + v % K) / K) := by ring
    omega
  have h2 : (u + v) / (2 * K) = (u / K + v / K + (u % K + v % K) / K) / 2 := by
    rw [show 2 * K = K * 2 from by ring, ← Nat.div_div_eq_div_mul, h1, Nat.mul_add_div hK,
      Nat.div_eq_of_lt (Nat.mod_lt _ hK), Nat.add_zero]
  exact h2.symm

theorem carry_div_small (K u w : Nat) (hK : 0 < K) (hu : u < 2 * K) (hw : w < K) :
    ((u % K + w) / K + u / K) / 2 = (w + u) / (2 * K) := by
  have h := carry_div K u w hK hu (by omega)
  rw [Nat.div_eq_of_lt hw, Nat.mod_eq_of_lt hw, Nat.add_zero] at h
  rw [Nat.add_comm (u / K) ((u % K + w) / K)] at h
  rw [Nat.add_comm u w] at h
  exact h

theorem lor_eq_mul_add (e a b : Nat) (hb : b < 2 ^ e) : b ||| a * 2 ^ e = a * 2 ^ e + b := by
  rw [Nat.or_comm, Nat.mul_comm a (2 ^ e), ← Nat.mul_add_lt_is_or hb a]

theorem multiplyHiLo_unsigned (h r0 r1 : Nat) (hh : 2 ≤ h) (h0 : r0 < 2 ^ (2 * h))
    (h1 : r1 < 2 ^ (2 * h)) :
    multiplyHiLo (2 * h) false r0 r1 = (r0 * r1 / 2 ^ (2 * h), r0 * r1 % 2 ^ (2 * h)) := by
  have hbits : 2 * h / 2 = h := by omega
  have hM : (0 : Nat) < 2 ^ (2 * h) := Nat.two_pow_pos _
  have hH2 : (0 : Nat) < 2 ^ h := Nat.two_pow_pos _
  have hKpos : (0 : Nat) < 2 ^ (2 * h - 1) := Nat.two_pow_pos _
  have hHH : (2 : Nat) ^ h * 2 ^ h = 2 ^ (2 * h) := by ring
  have hKK : 2 * 2 ^ (2 * h - 1) = 2 ^ (2 * h) := by
    rw [← pow_succ']
    congr 1
    omega
  have hmul_lt : ∀ u v : Nat, u < 2 ^ h → v < 2 ^ h → u * v < 2 ^ (2 * h) := by
    intro u v hu hv
    calc u * v < 2 ^ h * 2 ^ h := mul_lt_mul'' hu hv (Nat.zero_le u) (Nat.zero_le v)
      _ = 2 ^ (2 * h) := hHH
  simp only [multiplyHiLo, isNegative, Bool.false_and, Bool.or_self, Bool.false_eq_true,
    if_false]
  rw [hbits]
  simp only [Nat.shiftRight_eq_div_pow, Nat.shiftLeft_eq, one_mul, pow_one,
    Nat.and_pow_two_sub_one_eq_mod]
  set a := r0 / 2 ^ h with ha
  set b := r0 % 2 ^ h with hb
  set c := r1 / 2 ^ h with hc
  set d := r1 % 2 ^ h with hd
  have ha_lt : a < 2 ^ h := by
    rw [ha]
    exact (Nat.div_lt_iff_lt_mul hH2).mpr (by rw [hHH]; exact h0)
  have hb_lt : b < 2 ^ h := by rw [hb]; exact Nat.mod_lt r0 hH2
  have hc_lt : c < 2 ^ h := by
    rw [hc]
    exact (Nat.div_lt_iff_lt_mul hH2).mpr (by rw [hHH]; exact h1)
  have hd_lt : d < 2 ^ h := by rw [hd]; exact Nat.mod_lt r1 hH2
  have hda_lt : d * a < 2 ^ (2 * h) := hmul_lt d a hd_lt ha_lt
  have hdb_lt : d * b < 2 ^ (2 * h) := hmul_lt d b hd_lt hb_lt
  have hca_lt : c * a < 2 ^ (2 * h) := hmul_lt c a hc_lt ha_lt
  have hcb_lt : c * b < 2 ^ (2 * h) := hmul_lt c b hc_lt hb_lt
  rw [Nat.mod_eq_of_lt hda_lt, Nat.mod_eq_of_lt hdb_lt, Nat.mod_eq_of_lt hca_lt,
    Nat.mod_eq_of_lt hcb_lt]
  rw [carry_div (2 ^ (2 * h - 1)) (d * a) (c * b) hKpos (by rw [hKK]; exact hda_lt)
    (by rw [hKK]; exact hcb_lt), hKK]
  set xco := (d * a + c * b) / 2 ^ (2 * h) with hxco
  set x := (d * a + c * b) % 2 ^ (2 * h) with hx
  set w := d * b / 2 ^ h with hw
  have hx_lt : x < 2 ^ (2 * h) := by rw [hx]; exact Nat.mod_lt _ hM
  have hw_lt : w < 2 ^ h := by
    rw [hw]
    exact (Nat.div_lt_iff_lt_mul hH2).mpr (by rw [hHH]; exact hdb_lt)
  have hwK : w < 2 ^ (2 * h - 1) :=
    lt_of_lt_of_le hw_lt (Nat.pow_le_pow_right (by norm_num) (by omega))
  rw [carry_div_small (2 ^ (2 * h - 1)) x w hKpos (by rw [hKK]; exact hx_lt) hwK, hKK]
  set yco := (w + x) / 2 ^ (2 * h) with hyco
  set y := (w + x) % 2 ^ (2 * h) with hy
  have hylo_lt : y % 2 ^ h < 2 ^ h := Nat.mod_lt _ hH2
  have hdblo_lt : d * b % 2 ^ h < 2 ^ h := Nat.mod_lt _ hH2
  rw [lor_eq_mul_add h (y % 2 ^ h) (d * b % 2 ^ h) hdblo_lt]
  have hr0e : r0 = a * 2 ^ h + b := by
    have e := Nat.div_add_mod r0 (2 ^ h)
    rw [← ha, ← hb] at e
    rw [← e]
    ring
  have hr1e : r1 = c * 2 ^ h + d := by
    have e := Nat.div_add_mod r1 (2 ^ h)
    rw [← hc, ← hd] at e
    rw [← e]
    ring
  have exeq : 2 ^ (2 * h) * xco + x = d * a + c * b := by
    have e := Nat.div_add_mod (d * a + c * b) (2 ^ (2 * h))
    rw [← hxco, ← hx] at e
    exact e
  have eyeq : 2 ^ (2 * h) * yco + y = w + x := by
    have e := Nat.div_add_mod (w + x) (2 ^ (2 * h))
    rw [← hyco, ← hy] at e
    exact e
  have edbe : 2 ^ h * w + d * b % 2 ^ h = d * b := by
    have e := Nat.div_add_mod (d * b) (2 ^ h)
    rw [← hw] at e
    exact e
  have hye : y = 2 ^ h * (y / 2 ^ h) + y % 2 ^ h := (Nat.div_add_mod y (2 ^ h)).symm
  have hQR : r0 * r1 = 2 ^ (2 * h) * (c * a + (yco + xco) * 2 ^ h + y / 2 ^ h)
      + (y % 2 ^ h * 2 ^ h + d * b % 2 ^ h) := by
    calc r0 * r1 = (a * 2 ^ h + b) * (c * 2 ^ h + d) := by rw [← hr0e, ← hr1e]
      _ = c * a * (2 ^ h * 2 ^ h) + (d * a + c * b) * 2 ^ h + d * b := by ring
      _ = c * a * (2 ^ h * 2 ^ h) + (2 ^ (2 * h) * xco + x) * 2 ^ h
            + (2 ^ h * w + d * b % 2 ^ h) := by rw [exeq, edbe]
      _ = c * a * (2 ^ h * 2 ^ h) + 2 ^ (2 * h) * xco * 2 ^ h + (w + x) * 2 ^ h
            + d * b % 2 ^ h := by ring
      _ = c * a * (2 ^ h * 2 ^ h) + 2 ^ (2 * h) * xco * 2 ^ h
            + (2 ^ (2 * h) * yco + y) * 2 ^ h + d * b % 2 ^ h := by rw [eyeq]
      _ = c * a * (2 ^ h * 2 ^ h) + 2 ^ (2 * h) * xco * 2 ^ h
            + (2 ^ (2 * h) * yco + (2 ^ h * (y / 2 ^ h) + y % 2 ^ h)) * 2 ^ h
            + d * b % 2 ^ h := by rw [← hye]
      _ = 2 ^ (2 * h) * (c * a + (yco + xco) * 2 ^ h + y / 2 ^ h)
            + (y % 2 ^ h * 2 ^ h + d * b % 2 ^ h) := by ring
  have hRlt : y % 2 ^ h * 2 ^ h + d * b % 2 ^ h < 2 ^ (2 * h) := by
    calc y % 2 ^ h * 2 ^ h + d * b % 2 ^ h < y % 2 ^ h * 2 ^ h + 2 ^ h := by omega
      _ = (y % 2 ^ h + 1) * 2 ^ h := by ring
      _ ≤ 2 ^ h * 2 ^ h := Nat.mul_le_mul_right _ (by omega)
      _ = 2 ^ (2 * h) := hHH
  have hlo_eq : y % 2 ^ h * 2 ^ h + d * b % 2 ^ h = r0 * r1 % 2 ^ (2 * h) := by
    rw [hQR, Nat.mul_add_mod, Nat.mod_eq_of_lt hRlt]
  have hhi_eq : c * a + (yco + xco) * 2 ^ h + y / 2 ^ h = r0 * r1 / 2 ^ (2 * h) := by
    rw [hQR, Nat.mul_add_div hM, Nat.div_eq_of_lt hRlt, Nat.add_zero]
  have hQlt : c * a + (yco + xco) * 2 ^ h + y / 2 ^ h < 2 ^ (2 * h) := by
    rw [hhi_eq]
    exact (Nat.div_lt_iff_lt_mul hM).mpr
      (mul_lt_mul'' h0 h1 (Nat.zero_le r0) (Nat.zero_le r1))
  rw [Prod.mk.injEq]
  constructor
  · rw [show y / 2 ^ h + c * a + (yco + xco) * 2 ^ h
        = c * a + (yco + xco) * 2 ^ h + y / 2 ^ h from by ring]
    rw [Nat.mod_eq_of_lt hQlt, hhi_eq]
  · rw [Nat.mod_eq_of_lt hRlt, hlo_eq]

theorem carry_div_one (K u : Nat) (hK2 : 2 ≤ K) (hu : u < 2 * K) :
    (u / K + (u % K + 1) / K) / 2 = (u + 1) / (2 * K) := by
  have h := carry_div K u 1 (by omega) hu (by omega)
  rw [Nat.div_eq_of_lt (by omega : (1 : Nat) < K),
    Nat.mod_eq_of_lt (by omega : (1 : Nat) < K), Nat.add_zero] at h
  exact h

theorem toSigned_pos (h P : Nat) (hh : 2 ≤ h)
    (hPle : P ≤ 2 ^ (2 * h - 1) * 2 ^ (2 * h - 1)) :
    toSigned (2 * (2 * h)) (P / 2 ^ (2 * h) * 2 ^ (2 * h) + P % 2 ^ (2 * h)) = (P : Int) := by
  have hKK : 2 * 2 ^ (2 * h - 1) = 2 ^ (2 * h) := by rw [← pow_succ']; congr 1; omega
  have hhalf : 2 * 2 ^ (2 * (2 * h) - 1) = 2 ^ (2 * (2 * h)) := by
    rw [← pow_succ']; congr 1; omega
  have hm2 : (2 : Nat) ^ (2 * (2 * h)) = 2 ^ (2 * h) * 2 ^ (2 * h) := by ring
  have hq4 : (2 : Nat) ^ (2 * h) * 2 ^ (2 * h)
      = 4 * (2 ^ (2 * h - 1) * 2 ^ (2 * h - 1)) := by rw [← hKK]; ring
  have hKKpos : 1 ≤ 2 ^ (2 * h - 1) * 2 ^ (2 * h - 1) :=
    Nat.mul_le_mul Nat.one_le_two_pow Nat.one_le_two_pow
  have hVP : P / 2 ^ (2 * h) * 2 ^ (2 * h) + P % 2 ^ (2 * h) = P := by
    have e := Nat.div_add_mod P (2 ^ (2 * h))
    have hcomm : P / 2 ^ (2 * h) * 2 ^ (2 * h) = 2 ^ (2 * h) * (P / 2 ^ (2 * h)) :=
      Nat.mul_comm _ _
    omega
  rw [hVP]
  unfold toSigned
  rw [if_pos (by omega)]

theorem toSigned_negFix (h P : Nat) (hh : 2 ≤ h)
    (hPle : P ≤ 2 ^ (2 * h - 1) * 2 ^ (2 * h - 1)) :
    toSigned (2 * (2 * h))
      ((2 ^ (2 * h) - 1 - P / 2 ^ (2 * h) +
          ((2 ^ (2 * h) - 1 - P % 2 ^ (2 * h)) / 2 ^ (2 * h - 1) +
              ((2 ^ (2 * h) - 1 - P % 2 ^ (2 * h)) % 2 ^ (2 * h - 1) + 1) / 2 ^ (2 * h - 1)) /
            2) %
          2 ^ (2 * h) * 2 ^ (2 * h) +
        (2 ^ (2 * h) - P % 2 ^ (2 * h)) % 2 ^ (2 * h))
      = -(P : Int) := by
  have hKK : 2 * 2 ^ (2 * h - 1) = 2 ^ (2 * h) := by rw [← pow_succ']; congr 1; omega
  have hK2 : 2 ≤ 2 ^ (2 * h - 1) := by
    calc (2 : Nat) = 2 ^ 1 := (pow_one 2).symm
      _ ≤ 2 ^ (2 * h - 1) := Nat.pow_le_pow_right (by norm_num) (by omega)
  have hhalf : 2 * 2 ^ (2 * (2 * h) - 1) = 2 ^ (2 * (2 * h)) := by
    rw [← pow_succ']; congr 1; omega
  have hm2 : (2 : Nat) ^ (2 * (2 * h)) = 2 ^ (2 * h) * 2 ^ (2 * h) := by ring
  have hq4 : (2 : Nat) ^ (2 * h) * 2 ^ (2 * h)
      = 4 * (2 ^ (2 * h - 1) * 2 ^ (2 * h - 1)) := by rw [← hKK]; ring
  have hKKpos : 1 ≤ 2 ^ (2 * h - 1) * 2 ^ (2 * h - 1) :=
    Nat.mul_le_mul Nat.one_le_two_pow Nat.one_le_two_pow
  have hMle : 2 ^ (2 * h) ≤ 2 ^ (2 * h - 1) * 2 ^ (2 * h - 1) := by
    rw [← hKK]
    exact Nat.mul_le_mul_right _ hK2
  have hRlt : P % 2 ^ (2 * h) < 2 ^ (2 * h) := Nat.mod_lt _ (by omega)
  have hQltM : P / 2 ^ (2 * h) < 2 ^ (2 * h) :=
    (Nat.div_lt_iff_lt_mul (by omega)).mpr (by omega)
  have e2 := Nat.div_add_mod P (2 ^ (2 * h))
  obtain ⟨Q, hQd⟩ : ∃ q, q = P / 2 ^ (2 * h) := ⟨_, rfl⟩
  obtain ⟨R, hRd⟩ : ∃ r, r = P % 2 ^ (2 * h) := ⟨_, rfl⟩
  rw [← hQd] at hQltM e2 ⊢
  rw [← hRd] at hRlt e2 ⊢
  rw [carry_div_one (2 ^ (2 * h - 1)) (2 ^ (2 * h) - 1 - R) hK2 (by omega), hKK]
  by_cases hR0 : R = 0
  · rw [hR0]
    rw [show 2 ^ (2 * h) - 1 - 0 + 1 = 2 ^ (2 * h) from by omega,
      Nat.div_self (by omega : 0 < 2 ^ (2 * h)), Nat.sub_zero, Nat.mod_self]
    rw [show 2 ^ (2 * h) - 1 - Q + 1 = 2 ^ (2 * h) - Q from by omega]
    by_cases hQ0 : Q = 0
    · have hP0 : P = 0 := by
        rw [hQ0, hR0] at e2
        simpa using e2.symm
      rw [hQ0, hP0, Nat.sub_zero, Nat.mod_self]
      simp [toSigned, Nat.two_pow_pos]
    · rw [Nat.mod_eq_of_lt (by omega : 2 ^ (2 * h) - Q < 2 ^ (2 * h))]
      rw [Nat.add_zero, Nat.sub_mul]
      rw [show Q * 2 ^ (2 * h) = 2 ^ (2 * h) * Q from Nat.mul_comm _ _]
      rw [show 2 ^ (2 * h) * 2 ^ (2 * h) - 2 ^ (2 * h) * Q
          = 2 ^ (2 * h) * 2 ^ (2 * h) - P from by omega]
      unfold toSigned
      rw [if_neg (by omega)]
      push_cast [Nat.cast_sub (by omega : P ≤ 2 ^ (2 * h) * 2 ^ (2 * h))]
      ring
  · rw [show 2 ^ (2 * h) - 1 - R + 1 = 2 ^ (2 * h) - R from by omega,
      Nat.div_eq_of_lt (by omega : 2 ^ (2 * h) - R < 2 ^ (2 * h)), Nat.add_zero]
    rw [Nat.mod_eq_of_lt (by omega : 2 ^ (2 * h) - 1 - Q < 2 ^ (2 * h))]
    rw [Nat.mod_eq_of_lt (by omega : 2 ^ (2 * h) - R < 2 ^ (2 * h))]
    rw [show (2 ^ (2 * h) - 1 - Q) * 2 ^ (2 * h)
        = 2 ^ (2 * h) * 2 ^ (2 * h) - 1 * 2 ^ (2 * h) - Q * 2 ^ (2 * h) from by
      rw [Nat.sub_mul, Nat.sub_mul], one_mul]
    rw [show Q * 2 ^ (2 * h) = 2 ^ (2 * h) * Q from Nat.mul_comm _ _]
    rw [show 2 ^ (2 * h) * 2 ^ (2 * h) - 2 ^ (2 * h) - 2 ^ (2 * h) * Q
          + (2 ^ (2 * h) - R)
        = 2 ^ (2 * h) * 2 ^ (2 * h) - P from by omega]
    unfold toSigned
    rw [if_neg (by omega)]
    push_cast [Nat.cast_sub (by omega : P ≤ 2 ^ (2 * h) * 2 ^ (2 * h))]
    ring

theorem multiplyHiLo_signed (h r0 r1 : Nat) (hh : 2 ≤ h) (h0 : r0 < 2 ^ (2 * h))
    (h1 : r1 < 2 ^ (2 * h)) :
    toSigned (2 * (2 * h)) ((multiplyHiLo (2 * h) true r0 r1).1 * 2 ^ (2 * h)
        + (multiplyHiLo (2 * h) true r0 r1).2)
      = toSigned (2 * h) r0 * toSigned (2 * h) r1 := by
  have hbits : 2 * h / 2 = h := by omega
  have hKK : 2 * 2 ^ (2 * h - 1) = 2 ^ (2 * h) := by rw [← pow_succ']; congr 1; omega
  have hK2 : 2 ≤ 2 ^ (2 * h - 1) := by
    calc (2 : Nat) = 2 ^ 1 := (pow_one 2).symm
      _ ≤ 2 ^ (2 * h - 1) := Nat.pow_le_pow_right (by norm_num) (by omega)
  by_cases hs0 : 2 ^ (2 * h - 1) ≤ r0 <;> by_cases hs1 : 2 ^ (2 * h - 1) ≤ r1
  · -- both negative: |r0| = 2^(2h) - r0, |r1| = 2^(2h) - r1, result not negated
    have hcore := multiplyHiLo_unsigned h (2 ^ (2 * h) - r0) (2 ^ (2 * h) - r1) hh
      (by omega) (by omega)
    simp only [multiplyHiLo, isNegative, Bool.false_and, Bool.or_self, Bool.false_eq_true,
      if_false] at hcore
    rw [hbits] at hcore
    simp only [Nat.shiftRight_eq_div_pow, Nat.shiftLeft_eq, one_mul, pow_one,
      Nat.and_pow_two_sub_one_eq_mod] at hcore
    rw [Prod.mk.injEq] at hcore
    simp only [multiplyHiLo, isNegative, Bool.true_and, decide_eq_true hs0,
      decide_eq_true hs1, Bool.not_true, Bool.and_false, Bool.or_self, Bool.false_eq_true,
      if_false, eq_self_iff_true, if_true] at *
    rw [hbits]
    simp only [Nat.shiftRight_eq_div_pow, Nat.shiftLeft_eq, one_mul, pow_one,
      Nat.and_pow_two_sub_one_eq_mod]
    rw [Nat.mod_eq_of_lt (by omega : 2 ^ (2 * h) - r0 < 2 ^ (2 * h)),
      Nat.mod_eq_of_lt (by omega : 2 ^ (2 * h) - r1 < 2 ^ (2 * h))]
    rw [hcore.1, hcore.2]
    have hPle : (2 ^ (2 * h) - r0) * (2 ^ (2 * h) - r1)
        ≤ 2 ^ (2 * h - 1) * 2 ^ (2 * h - 1) :=
      Nat.mul_le_mul (by omega) (by omega)
    rw [toSigned_pos h _ hh hPle]
    unfold toSigned
    rw [if_neg (by omega), if_neg (by omega)]
    push_cast [Nat.cast_sub (le_of_lt h0), Nat.cast_sub (le_of_lt h1)]
    ring
  · -- r0 negative, r1 nonnegative: result negated
    have hcore := multiplyHiLo_unsigned h (2 ^ (2 * h) - r0) r1 hh (by omega) h1
    simp only [multiplyHiLo, isNegative, Bool.false_and, Bool.or_self, Bool.false_eq_true,
      if_false] at hcore
    rw [hbits] at hcore
    simp only [Nat.shiftRight_eq_div_pow, Nat.shiftLeft_eq, one_mul, pow_one,
      Nat.and_pow_two_sub_one_eq_mod] at hcore
    rw [Prod.mk.injEq] at hcore
    simp only [multiplyHiLo, isNegative, Bool.true_and, decide_eq_true hs0,
      decide_eq_false hs1, Bool.not_true, Bool.not_false, Bool.and_self, Bool.and_false,
      Bool.false_and, Bool.or_false, Bool.false_or, Bool.false_eq_true, if_false,
      eq_self_iff_true, if_true] at *
    rw [hbits]
    simp only [Nat.shiftRight_eq_div_pow, Nat.shiftLeft_eq, one_mul, pow_one,
      Nat.and_pow_two_sub_one_eq_mod]
    rw [Nat.mod_eq_of_lt (by omega : 2 ^ (2 * h) - r0 < 2 ^ (2 * h))]
    rw [hcore.1, hcore.2]
    have hPle : (2 ^ (2 * h) - r0) * r1 ≤ 2 ^ (2 * h - 1) * 2 ^ (2 * h - 1) :=
      Nat.mul_le_mul (by omega) (by omega)
    rw [toSigned_negFix h _ hh hPle]
    unfold toSigned
    rw [if_neg (by omega), if_pos (by omega)]
    push_cast [Nat.cast_sub (le_of_lt h0)]
    ring
  · -- r0 nonnegative, r1 negative: result negated
    have hcore := multiplyHiLo_unsigned h r0 (2 ^ (2 * h) - r1) hh h0 (by omega)
    simp only [multiplyHiLo, isNegative, Bool.false_and, Bool.or_self, Bool.false_eq_true,
      if_false] at hcore
    rw [hbits] at hcore
    simp only [Nat.shiftRight_eq_div_pow, Nat.shiftLeft_eq, one_mul, pow_one,
      Nat.and_pow_two_sub_one_eq_mod] at hcore
    rw [Prod.mk.injEq] at hcore
    simp only [multiplyHiLo, isNegative, Bool.true_and, decide_eq_false hs0,
      decide_eq_true hs1, Bool.not_true, Bool.not_false, Bool.and_self, Bool.and_false,
      Bool.false_and, Bool.or_false, Bool.false_or, Bool.false_eq_true, if_false,
      eq_self_iff_true, if_true] at *
    rw [hbits]
    simp only [Nat.shiftRight_eq_div_pow, Nat.shiftLeft_eq, one_mul, pow_one,
      Nat.and_pow_two_sub_one_eq_mod]
    rw [Nat.mod_eq_of_lt (by omega : 2 ^ (2 * h) - r1 < 2 ^ (2 * h))]
    rw [hcore.1, hcore.2]
    have hPle : r0 * (2 ^ (2 * h) - r1) ≤ 2 ^ (2 * h - 1) * 2 ^ (2 * h - 1) :=
      Nat.mul_le_mul (by omega) (by omega)
    rw [toSigned_negFix h _ hh hPle]
    unfold toSigned
    rw [if_pos (by omega), if_neg (by omega)]
    push_cast [Nat.cast_sub (le_of_lt h1)]
    ring
  · -- both nonnegative
    have hcore := multiplyHiLo_unsigned h r0 r1 hh h0 h1
    simp only [multiplyHiLo, isNegative, Bool.false_and, Bool.or_self, Bool.false_eq_true,
      if_false] at hcore
    rw [hbits] at hcore
    simp only [Nat.shiftRight_eq_div_pow, Nat.shiftLeft_eq, one_mul, pow_one,
      Nat.and_pow_two_sub_one_eq_mod] at hcore
    rw [Prod.mk.injEq] at hcore
    simp only [multiplyHiLo, isNegative, Bool.true_and, decide_eq_false hs0,
      decide_eq_false hs1, Bool.false_and, Bool.or_self, Bool.false_eq_true, if_false] at *
    rw [hbits]
    simp only [Nat.shiftRight_eq_div_pow, Nat.shiftLeft_eq, one_mul, pow_one,
      Nat.and_pow_two_sub_one_eq_mod]
    rw [hcore.1, hcore.2]
    have hPle : r0 * r1 ≤ 2 ^ (2 * h - 1) * 2 ^ (2 * h - 1) :=
      Nat.mul_le_mul (by omega) (by omega)
    rw [toSigned_pos h _ hh hPle]
    unfold toSigned
    rw [if_pos (by omega), if_pos (by omega)]
    push_cast
    ring

/-- C1: for every pair of 32-bit operands, `multiplyHiLo` produces a pair
`(hi, lo)` whose reassembly as a 64-bit value is the exact product: for
unsigned operands `hi * 2^32 + lo = r0 * r1`, and for signed operands the
two's-complement reading of `hi:lo` equals the product of the two's-complement
readings of the operands; in particular for `r0 = 0x80000000` (INT32_MIN) and
`r1 = 0xFFFFFFFF` (-1) it yields `hi = 0, lo = 0x80000000`. -/
theorem multiplyHiLo_exact_32 :
    (∀ r0 r1 : Nat, r0 < 2 ^ 32 → r1 < 2 ^ 32 →
        (multiplyHiLo 32 false r0 r1).1 * 2 ^ 32 + (multiplyHiLo 32 false r0 r1).2
          = r0 * r1) ∧
      (∀ r0 r1 : Nat, r0 < 2 ^ 32 → r1 < 2 ^ 32 →
        toSigned 64 ((multiplyHiLo 32 true r0 r1).1 * 2 ^ 32
            + (multiplyHiLo 32 true r0 r1).2)
          = toSigned 32 r0 * toSigned 32 r1) ∧
      multiplyHiLo 32 true 0x80000000 0xFFFFFFFF = (0x00000000, 0x80000000) := by
  refine ⟨?_, ?_, by decide⟩
  · intro r0 r1 h0 h1
    have h := multiplyHiLo_unsigned 16 r0 r1 (by norm_num) (by simpa using h0)
      (by simpa using h1)
    rw [show (2 : Nat) * 16 = 32 from rfl] at h
    rw [h]
    have e := Nat.div_add_mod (r0 * r1) (2 ^ 32)
    have hcomm : r0 * r1 / 2 ^ 32 * 2 ^ 32 = 2 ^ 32 * (r0 * r1 / 2 ^ 32) :=
      Nat.mul_comm _ _
    show r0 * r1 / 2 ^ 32 * 2 ^ 32 + r0 * r1 % 2 ^ 32 = r0 * r1
    omega
  · intro r0 r1 h0 h1
    have h := multiplyHiLo_signed 16 r0 r1 (by norm_num) (by simpa using h0)
      (by simpa using h1)
    rw [show (2 : Nat) * 16 = 32 from rfl, show (2 : Nat) * 32 = 64 from rfl] at h
    exact h

theorem multiplyHiLo_exact_32_witness :
    (multiplyHiLo 32 false 0xDEADBEEF 0x12345678).1 * 2 ^ 32
        + (multiplyHiLo 32 false 0xDEADBEEF 0x12345678).2 = 0xDEADBEEF * 0x12345678 :=
  multiplyHiLo_exact_32.1 0xDEADBEEF 0x12345678 (by norm_num) (by norm_num)

end hydrazine
